import Mathlib

/-!
Verification of the ignore-pattern engine of repo_to_text_CJK.py.

The model covers `_convert_pattern_to_regex`, `_should_ignore` and
`_get_ignore_list` of class RepoAnalyzer.  Modelling conventions:

* Strings are Lean `String`s; internally we work on `List Char` (the
  `data` field), which matches Python's sequence-of-code-points strings.
* `sys.platform` is assumed to be POSIX (not "win32"), so the
  backslash-replacement branches are identity and are dropped.
* `unicodedata.normalize('NFC', s)` is modelled as the identity; it is
  the identity on every string considered in the claims (all ASCII).
* `_convert_pattern_to_regex` returns a regex *string* in the source;
  every regex it can return has the shape
  `'^' ++ optional '(?:.+/)?' ++ atoms ++ ('(?:/|$)' or '(?:/.*)?$')`
  (or the special `'^$'` for the empty pattern), so the model produces
  this shape directly as the structured value `CompiledRegex`, and the
  semantics of `re.match` on such a string is implemented by
  `matchCompiled`.  Python's `re` details that matter are modelled
  faithfully: `.` does not match a newline, `$` matches at the end of
  the string or just before a final newline, `[^/]` does match a
  newline, `re.match` anchors only at the start, and compiling a
  character class with a reversed range such as `[z-a]` raises
  `re.error` (modelled by `Option`: `none` is a raised error).
* The source escapes the characters `.+(){}\^$|` with a backslash and
  copies all other non-glob characters verbatim; both branches denote a
  literal single-character match, so the model uses one constructor
  `GAtom.lit` for both.
-/

namespace RepoToText

/-- The whitespace characters stripped by Python's `str.strip()`
(modelled for the ASCII whitespace characters). -/
def pyWhitespace (c : Char) : Bool :=
  c = ' ' || c = '\t' || c = '\n' || c = '\r' || c = '\x0b' || c = '\x0c'

/-- `str.strip()` on the character list of a string. -/
def stripChars (l : List Char) : List Char :=
  ((l.dropWhile pyWhitespace).reverse.dropWhile pyWhitespace).reverse

/-- Does list `l` begin with the list `p`? -/
def beginsWith : List Char → List Char → Bool
  | _, [] => true
  | [], _ :: _ => false
  | c :: l, d :: p => c = d && beginsWith l p

/-- Does the second list contain `p` as a contiguous sublist? -/
def hasSub (p : List Char) : List Char → Bool
  | [] => beginsWith [] p
  | c :: l2 => beginsWith (c :: l2) p || hasSub p l2

/-- One item of a compiled character class: a single character, a
range `lo-hi` (Python compares code points), or a category escape
(`d`, `D`, `s`, `S`, `w` or `W`). -/
inductive ClassItem where
  | single (c : Char)
  | range (lo hi : Char)
  | cat (c : Char)
deriving DecidableEq

/-- ASCII letter test (CPython raises "bad escape" exactly for
unrecognized escaped ASCII letters). -/
def isAsciiLetter (c : Char) : Bool :=
  ('a' ≤ c && c ≤ 'z') || ('A' ≤ c && c ≤ 'Z')

/-- Value of a hexadecimal digit, if it is one. -/
def hexVal (c : Char) : Option Nat :=
  if '0' ≤ c && c ≤ '9' then some (c.toNat - 48)
  else if 'a' ≤ c && c ≤ 'f' then some (c.toNat - 87)
  else if 'A' ≤ c && c ≤ 'F' then some (c.toNat - 55)
  else none

/-- Value of an octal digit, if it is one. -/
def octVal (c : Char) : Option Nat :=
  if '0' ≤ c && c ≤ '7' then some (c.toNat - 48) else none

/-- One escape sequence inside a character class, mirroring CPython's
`sre_parse` (verified against CPython 3.11): category escapes
`\d \D \s \S \w \W`; the control literals `\a \b \f \n \r \t \v`
(inside a class `\b` is a backspace); `\xHH` with exactly two hex
digits; `\uXXXX` with four hex digits; octal escapes of up to three
octal digits with value at most 0o377; any other escaped ASCII letter
or the digits 8 and 9 are `re.error` "bad escape"; every other escaped
character is that literal character.  Two conservative deviations,
both towards reporting an error: `\U...` and `\N{...}` escapes, and
`\u` escapes denoting a lone surrogate, compile in CPython but are
rejected here (a surrogate is not a Lean `Char`); and a backslash at
the very end of the class body escapes the generated `]`, so the real
class absorbs regex text beyond the converter's slice and its compile
status depends on that text — the model reports an error. -/
def classEscape : List Char → Option (ClassItem × List Char)
  | [] => none
  | c :: rest =>
    if c = 'd' || c = 'D' || c = 's' || c = 'S' || c = 'w' || c = 'W' then
      some (ClassItem.cat c, rest)
    else if c = 'a' then some (ClassItem.single '\x07', rest)
    else if c = 'b' then some (ClassItem.single '\x08', rest)
    else if c = 'f' then some (ClassItem.single '\x0c', rest)
    else if c = 'n' then some (ClassItem.single '\n', rest)
    else if c = 'r' then some (ClassItem.single '\r', rest)
    else if c = 't' then some (ClassItem.single '\t', rest)
    else if c = 'v' then some (ClassItem.single '\x0b', rest)
    else if c = 'x' then
      match rest with
      | h1 :: h2 :: rest2 =>
        match hexVal h1, hexVal h2 with
        | some v1, some v2 => some (ClassItem.single (Char.ofNat (16 * v1 + v2)), rest2)
        | _, _ => none
      | _ => none
    else if c = 'u' then
      match rest with
      | h1 :: h2 :: h3 :: h4 :: rest2 =>
        match hexVal h1, hexVal h2, hexVal h3, hexVal h4 with
        | some v1, some v2, some v3, some v4 =>
          let v := 4096 * v1 + 256 * v2 + 16 * v3 + v4
          if 55296 ≤ v && v ≤ 57343 then none
          else some (ClassItem.single (Char.ofNat v), rest2)
        | _, _, _, _ => none
      | _ => none
    else
      match octVal c with
      | some v1 =>
        match rest with
        | d2 :: rest3 =>
          match octVal d2 with
          | some v2 =>
            match rest3 with
            | d3 :: rest4 =>
              match octVal d3 with
              | some v3 =>
                let v := 64 * v1 + 8 * v2 + v3
                if v ≤ 255 then some (ClassItem.single (Char.ofNat v), rest4) else none
              | none => some (ClassItem.single (Char.ofNat (8 * v1 + v2)), rest3)
            | [] => some (ClassItem.single (Char.ofNat (8 * v1 + v2)), rest3)
          | none => some (ClassItem.single (Char.ofNat v1), rest)
        | [] => some (ClassItem.single (Char.ofNat v1), rest)
      | none =>
        if c = '8' || c = '9' then none
        else if isAsciiLetter c then none
        else some (ClassItem.single c, rest)

/-- The code point of an item usable as a range endpoint (CPython
rejects a range whose endpoint is a category escape). -/
def itemLit : ClassItem → Option Char
  | ClassItem.single c => some c
  | _ => none

/-- Parse the body of a character class (the text between `[` and `]`,
which contains no `]`) into items, mirroring CPython's class-body
grammar (verified against CPython 3.11): items are raw characters or
escapes (`classEscape`); an item followed by `-` and another item
forms a range, whose endpoints must both be single literals with the
low code point first (otherwise `re.error` "bad character range"); a
`-` at the start or end of the body is a literal.  `none` models
`re.error` (plus the conservative deviations listed at
`classEscape`).  Explicit fuel makes the recursion structural; every
step consumes at least one character, so fuel equal to the input
length suffices. -/
def parseClassItemsF : Nat → List Char → Option (List ClassItem)
  | 0, _ => none
  | _ + 1, [] => some []
  | fuel + 1, c :: rest =>
    match (if c = '\\' then classEscape rest else some (ClassItem.single c, rest)) with
    | none => none
    | some (item1, rest1) =>
      match rest1 with
      | '-' :: [] => (parseClassItemsF fuel []).map
          (fun is => item1 :: ClassItem.single '-' :: is)
      | '-' :: c2 :: rest2 =>
        match (if c2 = '\\' then classEscape rest2
               else some (ClassItem.single c2, rest2)) with
        | none => none
        | some (item2, rest3) =>
          match itemLit item1, itemLit item2 with
          | some lo, some hi =>
            if hi.toNat < lo.toNat then none
            else (parseClassItemsF fuel rest3).map (fun is => ClassItem.range lo hi :: is)
          | _, _ => none
      | _ => (parseClassItemsF fuel rest1).map (fun is => item1 :: is)

/-- The class-body item grammar at full fuel (the fuel is set to one
more than the length of the input, which is always sufficient because
every step consumes at least one character and the final step sees the
empty list). -/
def parseClassItems (l : List Char) : Option (List ClassItem) :=
  parseClassItemsF (l.length + 1) l

/-- Parse a whole class body: a leading `^` negates the class.  An
empty body and a lone `^` are reported as errors: in the generated
regex the `]` right after `[` or `[^` is, by CPython's first-position
rule, a literal `]` inside the class, so the class absorbs regex text
beyond the converter's slice and its compile status depends on that
text — the model conservatively reports an error for these
non-self-contained classes, as it does for a body ending in a bare
backslash (see `classEscape`). -/
def parseClass (content : List Char) : Option (Bool × List ClassItem) :=
  match content with
  | [] => none
  | c :: rest =>
    if c = '^' then
      match rest with
      | [] => none
      | _ => (parseClassItems rest).map (fun is => (true, is))
    else (parseClassItems content).map (fun is => (false, is))

/-- Does character `c` satisfy one class item?  Category membership is
modelled on the ASCII range (CPython's `\d`, `\s`, `\w` are
Unicode-aware for `str` patterns; every string in the claims is
ASCII). -/
def itemMatch (c : Char) : ClassItem → Bool
  | ClassItem.single d => c = d
  | ClassItem.range lo hi => lo.toNat ≤ c.toNat && c.toNat ≤ hi.toNat
  | ClassItem.cat k =>
    if k = 'd' then c.isDigit
    else if k = 'D' then !c.isDigit
    else if k = 's' then pyWhitespace c
    else if k = 'S' then !(pyWhitespace c)
    else if k = 'w' then c.isAlphanum || c = '_'
    else !(c.isAlphanum || c = '_')

/-- Does character `c` match the class `[content]`?  Only meaningful
when `parseClass content` succeeds; the `none` case is unreachable
under `regexOk`. -/
def classMatch (content : List Char) (c : Char) : Bool :=
  match parseClass content with
  | none => false
  | some (neg, items) => neg != items.any (itemMatch c)

/-- One atom of the regex body produced by `_convert_pattern_to_regex`:
a literal character (the source emits it escaped or verbatim, both
denote a literal), `.*` (from `**`), `[^/]*` (from `*`), `[^/]`
(from `?`), or a character class copied verbatim from the pattern. -/
inductive GAtom where
  | lit (c : Char)
  | anyStar
  | notSlashStar
  | notSlashOne
  | cls (content : List Char)
deriving DecidableEq

/-- The glob-to-regex loop of `_convert_pattern_to_regex` (source lines
262-293), with explicit fuel to make the recursion structural; the fuel
is set to the length of the input, which is always sufficient because
every step consumes at least one character. -/
def convertAtomsF : Nat → List Char → List GAtom
  | 0, _ => []
  | fuel + 1, l =>
    match l with
    | [] => []
    | c :: rest =>
      if c = '*' then
        match rest with
        | c2 :: rest2 =>
          if c2 = '*' then GAtom.anyStar :: convertAtomsF fuel rest2
          else GAtom.notSlashStar :: convertAtomsF fuel rest
        | [] => GAtom.notSlashStar :: convertAtomsF fuel []
      else if c = '?' then GAtom.notSlashOne :: convertAtomsF fuel rest
      else if c = '[' then
        let content := rest.takeWhile (fun x => x ≠ ']')
        if content.length < rest.length then
          GAtom.cls content :: convertAtomsF fuel (rest.drop (content.length + 1))
        else
          GAtom.lit '[' :: convertAtomsF fuel rest
      else GAtom.lit c :: convertAtomsF fuel rest

/-- The glob-to-regex loop at full fuel. -/
def convertAtoms (l : List Char) : List GAtom :=
  convertAtomsF l.length l

/-- The structured form of the regex string returned by
`_convert_pattern_to_regex`: `emptyOnly` is `'^$'`; `pat lead atoms
dirOnly` is `'^'`, then `'(?:.+/)?'` when `lead` is true, then the
body, then `'(?:/|$)'` when `dirOnly` is true and `'(?:/.*)?$'`
otherwise. -/
inductive CompiledRegex where
  | emptyOnly
  | pat (lead : Bool) (atoms : List GAtom) (dirOnly : Bool)
deriving DecidableEq

/-- `_convert_pattern_to_regex` (source lines 231-302) on the character
list of the pattern string. -/
def convert_pattern_to_regex (p : List Char) : CompiledRegex :=
  if p = [] then CompiledRegex.emptyOnly
  else
    let l := stripChars p
    let dirOnly := l.getLast? = some '/'
    let l2 := if dirOnly then l.dropLast else l
    let lead := ¬ (l2.head? = some '/')
    let l3 := if l2.head? = some '/' then l2.tail else l2
    CompiledRegex.pat lead (convertAtoms l3) dirOnly

/-- All character classes in the atom list compile without `re.error`. -/
def regexOkAtoms (atoms : List GAtom) : Bool :=
  atoms.all fun a =>
    match a with
    | GAtom.cls content => (parseClass content).isSome
    | _ => true

/-- The whole compiled regex compiles without `re.error`. -/
def regexOk : CompiledRegex → Bool
  | CompiledRegex.emptyOnly => true
  | CompiledRegex.pat _ atoms _ => regexOkAtoms atoms

/-- Python's `$` (no MULTILINE): it matches at the position where `s`
characters remain iff nothing remains, or exactly a final newline
remains. -/
def dollarEnd : List Char → Bool
  | [] => true
  | [c] => c = '\n'
  | _ => false

/-- Semantics of `.*$` applied to the remaining characters `t`: `.`
does not match a newline, so the run succeeds iff `t` contains no
newline except possibly a trailing one. -/
def starTail (t : List Char) : Bool :=
  let t2 := if t.getLast? = some '\n' then t.dropLast else t
  !(t2.any (fun c => c = '\n'))

/-- Semantics of the suffix `(?:/.*)?$` (non-directory patterns, source
line 300): either `$` accepts the remainder directly, or the remainder
starts with `/` and `.*$` accepts what follows it. -/
def tailFileOrDir (s : List Char) : Bool :=
  dollarEnd s || (s.head? = some '/' && starTail s.tail)

/-- Semantics of the suffix `(?:/|$)` (directory-only patterns, source
line 297); `re.match` does not anchor the end, so any remainder after
the `/` is accepted. -/
def tailDirOnly (s : List Char) : Bool :=
  dollarEnd s || s.head? = some '/'

/-- The suffixes of `s` reachable by letting a star consume characters,
none of which may equal `bad` (`bad = '\n'` for `.*`, `bad = '/'` for
`[^/]*`).  The first element is always `s` itself (the star consumes
nothing). -/
def starSuffixes (bad : Char) : List Char → List (List Char)
  | [] => [[]]
  | c :: s => (c :: s) :: (if c = bad then [] else starSuffixes bad s)

/-- Backtracking matcher for the regex body: `matchAtoms tail atoms s`
decides whether some decomposition of `s` lets `atoms` consume a
prefix and `tail` accept the remainder.  This is the semantics of the
body of the regex string on the remaining input `s`. -/
def matchAtoms (tail : List Char → Bool) : List GAtom → List Char → Bool
  | [], s => tail s
  | GAtom.lit c :: as, s =>
    match s with
    | [] => false
    | x :: s1 => x = c && matchAtoms tail as s1
  | GAtom.notSlashOne :: as, s =>
    match s with
    | [] => false
    | x :: s1 => x ≠ '/' && matchAtoms tail as s1
  | GAtom.cls content :: as, s =>
    match s with
    | [] => false
    | x :: s1 => classMatch content x && matchAtoms tail as s1
  | GAtom.anyStar :: as, s => (starSuffixes '\n' s).any (fun t => matchAtoms tail as t)
  | GAtom.notSlashStar :: as, s => (starSuffixes '/' s).any (fun t => matchAtoms tail as t)

/-- The state of `(?:.+/)?` after it has consumed at least one
character: it may stop by consuming a `/` now, or consume any further
non-newline character. -/
def leadAfterOne (f : List Char → Bool) : List Char → Bool
  | [] => false
  | c :: s => (c = '/' && f s) || (c ≠ '\n' && leadAfterOne f s)

/-- Semantics of the optional leading `(?:.+/)?` (source line 259):
either it consumes nothing, or (when present) at least one non-newline
character followed by a `/`. -/
def matchTop (lead : Bool) (f : List Char → Bool) (s : List Char) : Bool :=
  f s ||
    (lead &&
      (match s with
       | [] => false
       | c :: s1 => c ≠ '\n' && leadAfterOne f s1))

/-- `re.match(regex, path)` viewed as a Boolean (assuming the regex
compiled): does the compiled regex match at the start of `s`? -/
def matchCompiled : CompiledRegex → List Char → Bool
  | CompiledRegex.emptyOnly, s => dollarEnd s
  | CompiledRegex.pat lead atoms dirOnly, s =>
    matchTop lead (matchAtoms (if dirOnly then tailDirOnly else tailFileOrDir) atoms) s

/-- `re.match(regex, path)` including the possibility of `re.error`
when the regex string does not compile: `none` is a raised error. -/
def re_match (r : CompiledRegex) (path : List Char) : Option Bool :=
  if regexOk r then some (matchCompiled r path) else none

/-- The variants of the path checked by `_should_ignore` (source lines
191-194): the path itself, plus the path with a trailing slash when
the candidate is a directory. -/
def pathsToCheck (path : List Char) (isDir : Bool) : List (List Char) :=
  if isDir then [path, path ++ ['/']] else [path]

/-- Is this stored pattern skipped by the loop of `_should_ignore`
(empty or a comment, source line 206)? -/
def patternSkip (p : List Char) : Bool :=
  p.isEmpty || p.head? = some '#'

/-- Is this stored pattern a negation pattern (source line 210)? -/
def patternNeg (p : List Char) : Bool :=
  p.head? = some '!'

/-- The pattern with its leading `!` removed when negated (source line
212). -/
def patternBody (p : List Char) : List Char :=
  if patternNeg p then p.tail else p

/-- The compiled regex of one stored pattern. -/
def patternRegex (p : List Char) : CompiledRegex :=
  convert_pattern_to_regex (patternBody p)

/-- Does this stored pattern's regex compile without `re.error`? -/
def patOk (p : List Char) : Bool :=
  regexOk (patternRegex p)

/-- Does this stored pattern match one of the candidate path variants
(source line 218)? -/
def patMatches (p : List Char) (paths : List (List Char)) : Bool :=
  paths.any (fun q => matchCompiled (patternRegex p) q)

/-- The pattern loop of `_should_ignore` (source lines 196-229):
`negated` is the flag set by a matching negation pattern; a matching
non-negated pattern returns `True` only while the flag is unset; the
loop falls through to `False`.  `none` models `re.error` escaping from
`re.match` on a pattern whose regex does not compile. -/
def ignoreLoop (paths : List (List Char)) : List (List Char) → Bool → Option Bool
  | [], _ => some false
  | p :: rest, negated =>
    if patternSkip p then ignoreLoop paths rest negated
    else if patOk p then
      if patMatches p paths then
        if patternNeg p then ignoreLoop paths rest true
        else if negated then ignoreLoop paths rest negated
        else some true
      else ignoreLoop paths rest negated
    else none

/-- `_should_ignore` (source lines 176-229) as a function of the ignore
list, the candidate path, and whether the candidate is a directory
(the `os.path.isdir` test of line 193 carried as a flag). -/
def should_ignore (ignoreList : List String) (path : String) (isDir : Bool) : Option Bool :=
  ignoreLoop (pathsToCheck path.data isDir) (ignoreList.map (fun s => s.data)) false

/-- The fixed default pattern list of `_get_ignore_list` (source lines
164-168). -/
def default_ignores : List String :=
  ["**/.git/**", "**/.svn/**", "**/.hg/**", "**/node_modules/**",
   "**/__pycache__/**", "**/.vs/**", "**/.idea/**", "**/venv/**",
   "**/.env/**", "**/dist/**", "**/build/**", "**/coverage/**"]

/-- `str.strip()` on a string. -/
def pyStrip (s : String) : String :=
  ⟨stripChars s.data⟩

/-- The user patterns produced from the lines of the ignore file:
each line stripped, empty lines and comments skipped (source lines
134-148). -/
def userPats (lines : List String) : List String :=
  (lines.map pyStrip).filter (fun l => !(l.data.isEmpty || l.data.head? = some '#'))

/-- The default-appending loop of `_get_ignore_list` (source lines
170-172): each default is appended when not already present. -/
def addDefaults (acc : List String) : List String → List String
  | [] => acc
  | d :: ds => if d ∈ acc then addDefaults acc ds else addDefaults (acc ++ [d]) ds

/-- `_get_ignore_list` (source lines 121-174) as a function of the
lines of the ignore file (an absent file contributes no lines). -/
def get_ignore_list (lines : List String) : List String :=
  addDefaults (userPats lines) default_ignores

/-- Evaluation order the spec for claim C1 describes ("last match
wins"): the outcome is decided by the last pattern in load order whose
compiled regex matches a candidate variant; negated means kept, so the
result is true iff that last matching pattern is non-negated.
Following the spec's words, for comparison with `should_ignore`. -/
def specLastMatchWins (paths : List (List Char)) (pats : List (List Char)) : Bool :=
  match pats.reverse.find? (fun p => !patternSkip p && patMatches p paths) with
  | some p => !patternNeg p
  | none => false

/-- The order `should_ignore` actually implements: the outcome is
decided by the first non-skipped pattern in load order whose compiled
regex matches a candidate variant; the result is true iff that first
matching pattern is non-negated. -/
def specFirstMatch (paths : List (List Char)) : List (List Char) → Bool
  | [] => false
  | p :: rest =>
    if patternSkip p then specFirstMatch paths rest
    else if patMatches p paths then !(patternNeg p)
    else specFirstMatch paths rest

/-- Once the `negated` flag of `_should_ignore` is set it is never
cleared, and no later pattern can return `True`: the loop runs to the
end and falls through to `False` (provided every regex compiles). -/
lemma ignoreLoop_negated_true (paths : List (List Char)) :
    ∀ pats : List (List Char), (∀ p ∈ pats, patOk p = true) →
      ignoreLoop paths pats true = some false := by
  intro pats
  induction pats with
  | nil => intro _; rfl
  | cons p rest ih =>
    intro h
    have hp : patOk p = true := h p (by simp)
    have hrest : ∀ q ∈ rest, patOk q = true := fun q hq => h q (by simp [hq])
    by_cases hs : patternSkip p = true
    · simp [ignoreLoop, hs, ih hrest]
    · by_cases hm : patMatches p paths = true
      · by_cases hn : patternNeg p = true
        · simp [ignoreLoop, hs, hp, hm, hn, ih hrest]
        · simp [ignoreLoop, hs, hp, hm, hn, ih hrest]
      · simp [ignoreLoop, hs, hp, hm, ih hrest]

/-- With the `negated` flag unset, the loop of `_should_ignore`
computes exactly the first-match-wins outcome (provided every regex
compiles). -/
lemma ignoreLoop_eq_specFirstMatch (paths : List (List Char)) :
    ∀ pats : List (List Char), (∀ p ∈ pats, patOk p = true) →
      ignoreLoop paths pats false = some (specFirstMatch paths pats) := by
  intro pats
  induction pats with
  | nil => intro _; rfl
  | cons p rest ih =>
    intro h
    have hp : patOk p = true := h p (by simp)
    have hrest : ∀ q ∈ rest, patOk q = true := fun q hq => h q (by simp [hq])
    by_cases hs : patternSkip p = true
    · simp [ignoreLoop, specFirstMatch, hs, ih hrest]
    · by_cases hm : patMatches p paths = true
      · by_cases hn : patternNeg p = true
        · simp [ignoreLoop, specFirstMatch, hs, hp, hm, hn,
            ignoreLoop_negated_true paths rest hrest]
        · simp [ignoreLoop, specFirstMatch, hs, hp, hm, hn]
      · simp [ignoreLoop, specFirstMatch, hs, hp, hm, ih hrest]

/-- The first-match-wins outcome, described positionally: true iff the
pattern list splits as `pre ++ p :: suf` where `p` is a non-skipped,
non-negated, matching pattern and no negated pattern in `pre`
matches. -/
lemma specFirstMatch_iff_decomp (paths : List (List Char)) :
    ∀ pats : List (List Char),
      (specFirstMatch paths pats = true ↔
        ∃ pre p suf, pats = pre ++ p :: suf ∧ patternSkip p = false ∧
          patternNeg p = false ∧ patMatches p paths = true ∧
          ∀ q ∈ pre, ¬(patternSkip q = false ∧ patternNeg q = true ∧
            patMatches q paths = true)) := by
  intro pats
  induction pats with
  | nil =>
    simp only [specFirstMatch]
    constructor
    · intro hfalse; exact absurd hfalse (by simp)
    · rintro ⟨pre, p, suf, habs, -⟩
      exact absurd habs (by simp)
  | cons p rest ih =>
    constructor
    · intro htrue
      by_cases hs : patternSkip p = true
      · have h2 : specFirstMatch paths rest = true := by
          simpa [specFirstMatch, hs] using htrue
        obtain ⟨pre, p1, suf, hsplit, h3, h4, h5, h6⟩ := ih.mp h2
        refine ⟨p :: pre, p1, suf, by simp [hsplit], h3, h4, h5, ?_⟩
        intro q hq
        rcases List.mem_cons.mp hq with hq | hq
        · subst hq; simp [hs]
        · exact h6 q hq
      · by_cases hm : patMatches p paths = true
        · have hn : patternNeg p = false := by
            by_contra hcon
            have hn2 : patternNeg p = true := by
              cases hcon2 : patternNeg p with
              | false => exact absurd hcon2 hcon
              | true => rfl
            simp [specFirstMatch, hs, hm, hn2] at htrue
          exact ⟨[], p, rest, rfl, by simpa using hs, hn, hm, by simp⟩
        · have h2 : specFirstMatch paths rest = true := by
            simpa [specFirstMatch, hs, hm] using htrue
          obtain ⟨pre, p1, suf, hsplit, h3, h4, h5, h6⟩ := ih.mp h2
          refine ⟨p :: pre, p1, suf, by simp [hsplit], h3, h4, h5, ?_⟩
          intro q hq
          rcases List.mem_cons.mp hq with hq | hq
          · subst hq; simp [hm]
          · exact h6 q hq
    · rintro ⟨pre, p1, suf, hsplit, h3, h4, h5, h6⟩
      cases pre with
      | nil =>
        have hp : p1 = p := by simpa using congrArg List.head? hsplit.symm
        subst hp
        have hrest : rest = suf := by simpa using hsplit
        simp [specFirstMatch, h3, h4, h5]
      | cons q pre1 =>
        have hq : q = p := by simpa using congrArg List.head? hsplit.symm
        subst hq
        have hrest : rest = pre1 ++ p1 :: suf := by simpa using hsplit
        have h7 : specFirstMatch paths rest = true := by
          refine ih.mpr ⟨pre1, p1, suf, hrest, h3, h4, h5, ?_⟩
          intro q2 hq2
          exact h6 q2 (by simp [hq2])
        have h8 := h6 q (by simp)
        by_cases hs : patternSkip q = true
        · simpa [specFirstMatch, hs] using h7
        · have hsf : patternSkip q = false := by
            cases hval : patternSkip q with
            | false => rfl
            | true => exact absurd hval hs
          by_cases hm : patMatches q paths = true
          · have hn : ¬ patternNeg q = true := fun hn => h8 ⟨hsf, hn, hm⟩
            have hnf : patternNeg q = false := by
              cases hval : patternNeg q with
              | false => rfl
              | true => exact absurd hval hn
            simp [specFirstMatch, hsf, hm, hnf]
          · simpa [specFirstMatch, hsf, hm] using h7

/-- A star run on `s ++ ext` can stop wherever a star run on `s`
stopped. -/
lemma mem_starSuffixes_append (bad : Char) (ext : List Char) :
    ∀ s t : List Char, t ∈ starSuffixes bad s → t ++ ext ∈ starSuffixes bad (s ++ ext) := by
  intro s
  induction s with
  | nil =>
    intro t ht
    have h1 : t = [] := by simpa [starSuffixes] using ht
    subst h1
    cases hext : ext with
    | nil => simp [starSuffixes]
    | cons c es => simp [starSuffixes]
  | cons c s1 ih =>
    intro t ht
    have ht2 : t = c :: s1 ∨ (¬ c = bad ∧ t ∈ starSuffixes bad s1) := by
      simpa [starSuffixes] using ht
    rcases ht2 with h1 | ⟨hb, h1⟩
    · subst h1; simp [starSuffixes]
    · have h2 := ih t h1
      simp [starSuffixes, hb, h2]

/-- Characters of a star suffix come from the original list. -/
lemma mem_of_mem_starSuffixes (bad : Char) :
    ∀ s t : List Char, t ∈ starSuffixes bad s → ∀ x ∈ t, x ∈ s := by
  intro s
  induction s with
  | nil =>
    intro t ht
    have h1 : t = [] := by simpa [starSuffixes] using ht
    subst h1; simp
  | cons c s1 ih =>
    intro t ht
    have ht2 : t = c :: s1 ∨ (¬ c = bad ∧ t ∈ starSuffixes bad s1) := by
      simpa [starSuffixes] using ht
    rcases ht2 with h1 | ⟨hb, h1⟩
    · subst h1; intro x hx; exact hx
    · intro x hx
      exact List.mem_cons.mpr (Or.inr (ih t h1 x hx))

/-- Appending `ext` to the input preserves a successful body match,
provided appending `ext` preserves the tail acceptor (on newline-free
remainders) and the input is newline-free. -/
lemma matchAtoms_extend (tail : List Char → Bool) (ext : List Char)
    (hT : ∀ t, '\n' ∉ t → tail t = true → tail (t ++ ext) = true) :
    ∀ atoms : List GAtom, ∀ s : List Char, '\n' ∉ s →
      matchAtoms tail atoms s = true → matchAtoms tail atoms (s ++ ext) = true := by
  intro atoms
  induction atoms with
  | nil =>
    intro s hs hm
    exact hT s hs (by simpa [matchAtoms] using hm)
  | cons a as ih =>
    intro s hs hm
    cases a with
    | lit c =>
      cases s with
      | nil => simp [matchAtoms] at hm
      | cons x s1 =>
        obtain ⟨hx, hrec⟩ := by simpa [matchAtoms] using hm
        have hs1 : '\n' ∉ s1 := fun h => hs (List.mem_cons.mpr (Or.inr h))
        simpa [matchAtoms, hx] using ih s1 hs1 hrec
    | notSlashOne =>
      cases s with
      | nil => simp [matchAtoms] at hm
      | cons x s1 =>
        obtain ⟨hx, hrec⟩ := by simpa [matchAtoms] using hm
        have hs1 : '\n' ∉ s1 := fun h => hs (List.mem_cons.mpr (Or.inr h))
        simpa [matchAtoms, hx] using ih s1 hs1 hrec
    | cls content =>
      cases s with
      | nil => simp [matchAtoms] at hm
      | cons x s1 =>
        obtain ⟨hx, hrec⟩ := by simpa [matchAtoms] using hm
        have hs1 : '\n' ∉ s1 := fun h => hs (List.mem_cons.mpr (Or.inr h))
        simpa [matchAtoms, hx] using ih s1 hs1 hrec
    | anyStar =>
      obtain ⟨t, ht, hrec⟩ := by simpa [matchAtoms, List.any_eq_true] using hm
      have htn : '\n' ∉ t := fun h => hs (mem_of_mem_starSuffixes '\n' s t ht '\n' h)
      have h2 := mem_starSuffixes_append '\n' ext s t ht
      have h3 := ih t htn hrec
      simp only [matchAtoms, List.any_eq_true]
      exact ⟨t ++ ext, h2, h3⟩
    | notSlashStar =>
      obtain ⟨t, ht, hrec⟩ := by simpa [matchAtoms, List.any_eq_true] using hm
      have htn : '\n' ∉ t := fun h => hs (mem_of_mem_starSuffixes '/' s t ht '\n' h)
      have h2 := mem_starSuffixes_append '/' ext s t ht
      have h3 := ih t htn hrec
      simp only [matchAtoms, List.any_eq_true]
      exact ⟨t ++ ext, h2, h3⟩

/-- `.*$` accepts any newline-free remainder. -/
lemma starTail_of_no_newline (t : List Char) (h : '\n' ∉ t) : starTail t = true := by
  have h2 : ∀ x ∈ t, ¬ x = '\n' := fun x hx hc => h (hc ▸ hx)
  unfold starTail
  by_cases hgl : t.getLast? = some '\n'
  · simp only [hgl, if_pos rfl]
    simp only [Bool.not_eq_true', List.any_eq_false]
    intro x hx
    simpa using h2 x (List.dropLast_subset t hx)
  · simp only [if_neg hgl]
    simp only [Bool.not_eq_true', List.any_eq_false]
    intro x hx
    simpa using h2 x hx

/-- Appending `'/' ++ r` (with `r` newline-free) preserves acceptance
by the non-directory suffix `(?:/.*)?$`, for newline-free remainders. -/
lemma tailFileOrDir_extend (r : List Char) (hr : '\n' ∉ r) :
    ∀ t, '\n' ∉ t → tailFileOrDir t = true → tailFileOrDir (t ++ '/' :: r) = true := by
  intro t htn ht
  have ht2 : dollarEnd t = true ∨ (t.head? = some '/' ∧ starTail t.tail = true) := by
    simpa [tailFileOrDir, Bool.or_eq_true, Bool.and_eq_true] using ht
  rcases ht2 with hd | ⟨hh, -⟩
  · have h1 : t = [] := by
      cases t with
      | nil => rfl
      | cons c t1 =>
        cases t1 with
        | nil =>
          have hc : c = '\n' := by simpa [dollarEnd] using hd
          exact absurd (hc ▸ List.mem_singleton_self c) (hc ▸ htn)
        | cons d t2 => simp [dollarEnd] at hd
    subst h1
    simp [tailFileOrDir, starTail_of_no_newline r hr]
  · cases t with
    | nil => simp at hh
    | cons c t1 =>
      have hc : c = '/' := by simpa using hh
      subst hc
      have ht1 : '\n' ∉ t1 ++ '/' :: r := by
        intro hmem
        rcases List.mem_append.mp hmem with h | h
        · exact htn (List.mem_cons.mpr (Or.inr h))
        · rcases List.mem_cons.mp h with h | h
          · exact absurd h.symm (by decide)
          · exact hr h
      simp [tailFileOrDir, starTail_of_no_newline _ ht1]

/-- Appending `ext` preserves a successful `(?:.+/)?`-state run,
under the same proviso on the continuation. -/
lemma leadAfterOne_extend (f : List Char → Bool) (ext : List Char)
    (hf : ∀ t, '\n' ∉ t → f t = true → f (t ++ ext) = true) :
    ∀ s : List Char, '\n' ∉ s →
      leadAfterOne f s = true → leadAfterOne f (s ++ ext) = true := by
  intro s
  induction s with
  | nil => intro _ h; simp [leadAfterOne] at h
  | cons c s1 ih =>
    intro hs h
    have hs1 : '\n' ∉ s1 := fun hx => hs (List.mem_cons.mpr (Or.inr hx))
    rcases (by simpa [leadAfterOne, Bool.or_eq_true] using h :
        (c = '/' ∧ f s1 = true) ∨ (¬ c = '\n' ∧ leadAfterOne f s1 = true)) with ⟨hc, hf1⟩ | ⟨hc, h1⟩
    · subst hc
      simp [leadAfterOne, hf s1 hs1 hf1]
    · simp [leadAfterOne, hc, ih hs1 h1]

/-- Appending `ext` preserves a whole-regex body match (lead included),
under the same proviso on the continuation. -/
lemma matchTop_extend (lead : Bool) (f : List Char → Bool) (ext : List Char)
    (hf : ∀ t, '\n' ∉ t → f t = true → f (t ++ ext) = true)
    (s : List Char) (hs : '\n' ∉ s) (h : matchTop lead f s = true) :
    matchTop lead f (s ++ ext) = true := by
  rcases (by simpa [matchTop, Bool.or_eq_true] using h :
      f s = true ∨ (lead = true ∧ _)) with h1 | ⟨hl, h1⟩
  · simp [matchTop, hf s hs h1]
  · cases s with
    | nil => simp at h1
    | cons c s1 =>
      have hs1 : '\n' ∉ s1 := fun hx => hs (List.mem_cons.mpr (Or.inr hx))
      obtain ⟨hc, h2⟩ := by simpa using h1
      have h3 := leadAfterOne_extend f ext hf s1 hs1 h2
      simp [matchTop, hl, hc, h3]

/-- A body made only of literal characters consumes exactly that
string of characters. -/
lemma matchAtoms_lit_iff (tail : List Char → Bool) :
    ∀ l s : List Char,
      (matchAtoms tail (l.map GAtom.lit) s = true ↔
        ∃ s1, s = l ++ s1 ∧ tail s1 = true) := by
  intro l
  induction l with
  | nil => intro s; simp [matchAtoms]
  | cons c l1 ih =>
    intro s
    cases s with
    | nil =>
      simp only [List.map_cons, matchAtoms]
      constructor
      · intro h; exact absurd h (by simp)
      · rintro ⟨s1, habs, -⟩; exact absurd habs (by simp)
    | cons x s1 =>
      constructor
      · intro h
        have h2 : x = c ∧ matchAtoms tail (l1.map GAtom.lit) s1 = true := by
          simpa [matchAtoms] using h
        obtain ⟨s2, hs2, ht⟩ := (ih s1).mp h2.2
        exact ⟨s2, by simp [h2.1, hs2], ht⟩
      · rintro ⟨s2, heq, ht⟩
        have h2 : x = c ∧ s1 = l1 ++ s2 := by simpa using heq
        have h3 := (ih s1).mpr ⟨s2, h2.2, ht⟩
        simp [matchAtoms, h2.1, h3]

/-- Exact description of the `(?:.+/)?`-state: it succeeds iff the
input splits as a newline-free block, a slash, and an accepted rest. -/
lemma leadAfterOne_iff (f : List Char → Bool) :
    ∀ s : List Char,
      (leadAfterOne f s = true ↔
        ∃ a t, s = a ++ '/' :: t ∧ '\n' ∉ a ∧ f t = true) := by
  intro s
  induction s with
  | nil =>
    simp only [leadAfterOne]
    constructor
    · intro h; exact absurd h (by simp)
    · rintro ⟨a, t, habs, -⟩; exact absurd habs (by simp)
  | cons c s1 ih =>
    constructor
    · intro h
      have h2 : (c = '/' ∧ f s1 = true) ∨ (¬ c = '\n' ∧ leadAfterOne f s1 = true) := by
        simpa [leadAfterOne, Bool.or_eq_true, Bool.and_eq_true] using h
      rcases h2 with ⟨hc, hf1⟩ | ⟨hc, h1⟩
      · exact ⟨[], s1, by simp [hc], by simp, hf1⟩
      · obtain ⟨a, t, heq, hna, hft⟩ := ih.mp h1
        refine ⟨c :: a, t, by simp [heq], ?_, hft⟩
        intro hmem
        rcases List.mem_cons.mp hmem with hx | hx
        · exact hc hx.symm
        · exact hna hx
    · rintro ⟨a, t, heq, hna, hft⟩
      cases a with
      | nil =>
        have h2 : c = '/' ∧ s1 = t := by simpa using heq
        simp [leadAfterOne, h2.1, h2.2, hft]
      | cons d a1 =>
        have h2 : c = d ∧ s1 = a1 ++ '/' :: t := by simpa using heq
        have hcn : ¬ c = '\n' := fun hx => hna (by
          rw [← h2.1, ← hx]; exact List.mem_cons_self c a1)
        have h3 := ih.mpr ⟨a1, t, h2.2, fun hx => hna (List.mem_cons.mpr (Or.inr hx)), hft⟩
        simp [leadAfterOne, hcn, h3]

/-- Exact description of `'^(?:.+/)?' ++ body` matching: either the
body matches at the start, or a nonempty newline-free block ending in
`/` precedes it. -/
lemma matchTop_true_iff (f : List Char → Bool) (s : List Char) :
    matchTop true f s = true ↔
      f s = true ∨ ∃ a t, s = a ++ '/' :: t ∧ a ≠ [] ∧ '\n' ∉ a ∧ f t = true := by
  cases s with
  | nil =>
    simp only [matchTop]
    constructor
    · intro h
      exact Or.inl (by simpa using h)
    · rintro (h | ⟨a, t, habs, hne, -⟩)
      · simp [h]
      · cases a with
        | nil => exact absurd rfl hne
        | cons d a1 => exact absurd habs (by simp)
  | cons c s1 =>
    constructor
    · intro h
      have h2 : f (c :: s1) = true ∨ (¬ c = '\n' ∧ leadAfterOne f s1 = true) := by
        simpa [matchTop, Bool.or_eq_true, Bool.and_eq_true] using h
      rcases h2 with h1 | ⟨hc, h1⟩
      · exact Or.inl h1
      · obtain ⟨a, t, heq, hna, hft⟩ := (leadAfterOne_iff f s1).mp h1
        refine Or.inr ⟨c :: a, t, by simp [heq], by simp, ?_, hft⟩
        intro hmem
        rcases List.mem_cons.mp hmem with hx | hx
        · exact hc hx.symm
        · exact hna hx
    · rintro (h1 | ⟨a, t, heq, hne, hna, hft⟩)
      · simp [matchTop, h1]
      · cases a with
        | nil => exact absurd rfl hne
        | cons d a1 =>
          have h2 : c = d ∧ s1 = a1 ++ '/' :: t := by simpa using heq
          have hcn : ¬ c = '\n' := fun hx => hna (by
            rw [← h2.1, ← hx]; exact List.mem_cons_self c a1)
          have h3 := (leadAfterOne_iff f s1).mpr
            ⟨a1, t, h2.2, fun hx => hna (List.mem_cons.mpr (Or.inr hx)), hft⟩
          simp [matchTop, hcn, h3]

/-- On a newline-free remainder, the non-directory suffix accepts iff
the remainder is empty or starts with a slash. -/
lemma tailFileOrDir_no_newline_iff (s : List Char) (h : '\n' ∉ s) :
    tailFileOrDir s = true ↔ s = [] ∨ s.head? = some '/' := by
  constructor
  · intro ht
    have ht2 : dollarEnd s = true ∨ (s.head? = some '/' ∧ starTail s.tail = true) := by
      simpa [tailFileOrDir, Bool.or_eq_true, Bool.and_eq_true] using ht
    rcases ht2 with hd | ⟨hh, -⟩
    · left
      cases s with
      | nil => rfl
      | cons c t1 =>
        cases t1 with
        | nil =>
          have hc : c = '\n' := by simpa [dollarEnd] using hd
          exact absurd (hc ▸ List.mem_singleton_self c) (hc ▸ h)
        | cons d t2 => simp [dollarEnd] at hd
    · exact Or.inr hh
  · rintro (h1 | h1)
    · subst h1; simp [tailFileOrDir, dollarEnd]
    · cases s with
      | nil => simp at h1
      | cons c t1 =>
        have hc : c = '/' := by simpa using h1
        subst hc
        have ht1 : '\n' ∉ t1 := fun hx => h (List.mem_cons.mpr (Or.inr hx))
        simp [tailFileOrDir, starTail_of_no_newline t1 ht1]

/-- Whatever the remainder, the non-directory suffix accepts only an
empty remainder, a lone final newline, or a remainder starting with a
slash. -/
lemma tailFileOrDir_shapes (s : List Char) (h : tailFileOrDir s = true) :
    s = [] ∨ s = ['\n'] ∨ s.head? = some '/' := by
  have ht2 : dollarEnd s = true ∨ (s.head? = some '/' ∧ starTail s.tail = true) := by
    simpa [tailFileOrDir, Bool.or_eq_true, Bool.and_eq_true] using h
  rcases ht2 with hd | ⟨hh, -⟩
  · cases s with
    | nil => exact Or.inl rfl
    | cons c t1 =>
      cases t1 with
      | nil =>
        have hc : c = '\n' := by simpa [dollarEnd] using hd
        exact Or.inr (Or.inl (by simp [hc]))
      | cons d t2 => simp [dollarEnd] at hd
  · exact Or.inr (Or.inr hh)

/-- The glob loop maps a pattern free of `*`, `?` and `[` to the list
of its characters as literal atoms. -/
lemma convertAtomsF_lit :
    ∀ fuel : Nat, ∀ l : List Char, l.length ≤ fuel →
      (∀ c ∈ l, ¬ c = '*' ∧ ¬ c = '?' ∧ ¬ c = '[') →
      convertAtomsF fuel l = l.map GAtom.lit := by
  intro fuel
  induction fuel with
  | zero =>
    intro l hl _
    have h0 : l = [] := List.length_eq_zero.mp (Nat.le_zero.mp hl)
    subst h0; rfl
  | succ n ih =>
    intro l hl hc
    cases l with
    | nil => rfl
    | cons c rest =>
      obtain ⟨h1, h2, h3⟩ := hc c (by simp)
      have h4 := ih rest (by simpa using Nat.le_of_succ_le_succ hl)
        (fun x hx => hc x (by simp [hx]))
      simp [convertAtomsF, h1, h2, h3, h4]

/-- Atom lists without character classes always compile. -/
lemma regexOkAtoms_lit (l : List Char) : regexOkAtoms (l.map GAtom.lit) = true := by
  simp only [regexOkAtoms, List.all_eq_true]
  intro a ha
  obtain ⟨c, -, hc⟩ := List.mem_map.mp ha
  simp [← hc]

/-- `_convert_pattern_to_regex` on a nonempty, already-stripped pattern
with no glob characters, no leading slash and no trailing slash:
the result is the literal body with lead and file-or-dir suffix. -/
lemma convert_lit (p : List Char) (h1 : ¬ p = []) (h2 : stripChars p = p)
    (h5 : ¬ p.head? = some '/') (h6 : ¬ p.getLast? = some '/')
    (h7 : ∀ c ∈ p, ¬ c = '*' ∧ ¬ c = '?' ∧ ¬ c = '[') :
    convert_pattern_to_regex p = CompiledRegex.pat true (p.map GAtom.lit) false := by
  unfold convert_pattern_to_regex
  rw [if_neg h1]
  simp only [h2]
  rw [if_neg h6, if_neg h5]
  simp only [convertAtoms, convertAtomsF_lit p.length p (Nat.le_refl _) h7]
  simp [h5, h6]

/-- The loop of `_should_ignore` on a single compilable, non-skipped
pattern: the candidate is ignored iff the pattern matches and is not
negated. -/
lemma ignoreLoop_single (q pl : List Char)
    (hskip : patternSkip pl = false) (hok : patOk pl = true) :
    ignoreLoop [q] [pl] false = some (patMatches pl [q] && !patternNeg pl) := by
  by_cases hm : patMatches pl [q] = true
  · by_cases hn : patternNeg pl = true
    · simp [ignoreLoop, hskip, hok, hm, hn]
    · simp [ignoreLoop, hskip, hok, hm, hn]
  · simp [ignoreLoop, hskip, hok, hm]

/-- A list begins with any of its own prefixes. -/
lemma beginsWith_append (m suf : List Char) : beginsWith (m ++ suf) m = true := by
  induction m with
  | nil => cases suf with | nil => rfl | cons c s => rfl
  | cons c m1 ih => simp [beginsWith, ih]

/-- A decomposition into `pre ++ m ++ suf` witnesses `m` as a
contiguous sublist. -/
lemma hasSub_of_decomp (m : List Char) :
    ∀ pre suf q : List Char, q = pre ++ m ++ suf → hasSub m q = true := by
  intro pre
  induction pre with
  | nil =>
    intro suf q hq
    subst hq
    cases hqm : m ++ suf with
    | nil =>
      rcases List.append_eq_nil.mp hqm with ⟨rfl, rfl⟩
      rfl
    | cons x l2 =>
      rw [List.nil_append, hqm]
      simp only [hasSub, Bool.or_eq_true]
      exact Or.inl (by rw [← hqm]; exact beginsWith_append m suf)
  | cons c pre1 ih =>
    intro suf q hq
    subst hq
    simp only [List.cons_append, hasSub, Bool.or_eq_true]
    exact Or.inr (ih suf (pre1 ++ m ++ suf) rfl)

/-- Claim C5: for a nonempty already-stripped pattern containing none
of `*`, `?`, `[` (hence no `**`), not a comment or negation, with no
leading or trailing slash, `should_ignore` on that single pattern is
exactly segment matching: the path is ignored iff it splits as
`pre ++ pattern ++ suf` where `pre` is empty or ends in `/` and `suf`
is empty or starts with `/`.  The path is assumed newline-free and not
starting with `/` (relative paths, as produced by the caller).  In
particular pattern "build" ignores "build", "build/out.o" and
"src/build" but not "builder". -/
theorem c5_literal_pattern_segment_match (p q : String)
    (h1 : ¬ p.data = []) (h2 : stripChars p.data = p.data)
    (h3 : ¬ p.data.head? = some '#') (h4 : ¬ p.data.head? = some '!')
    (h5 : ¬ p.data.head? = some '/') (h6 : ¬ p.data.getLast? = some '/')
    (h7 : ∀ c ∈ p.data, ¬ c = '*' ∧ ¬ c = '?' ∧ ¬ c = '[')
    (h8 : '\n' ∉ q.data) (h9 : ¬ q.data.head? = some '/') :
    (should_ignore [p] q false = some true ↔
      ∃ pre suf : List Char, q.data = pre ++ p.data ++ suf ∧
        (pre = [] ∨ pre.getLast? = some '/') ∧
        (suf = [] ∨ suf.head? = some '/')) := by
  have hskip : patternSkip p.data = false := by
    simp [patternSkip, List.isEmpty_iff, h3]
    exact h1
  have hneg : patternNeg p.data = false := by
    simp [patternNeg, h4]
  have hreg : patternRegex p.data = CompiledRegex.pat true (p.data.map GAtom.lit) false := by
    simp only [patternRegex, patternBody, hneg, Bool.false_eq_true, if_false]
    exact convert_lit p.data h1 h2 h5 h6 h7
  have hok : patOk p.data = true := by
    simp [patOk, hreg, regexOk, regexOkAtoms_lit]
  have hm : patMatches p.data [q.data] =
      matchTop true (matchAtoms tailFileOrDir (p.data.map GAtom.lit)) q.data := by
    simp [patMatches, hreg, matchCompiled]
  have hsi : should_ignore [p] q false =
      some (matchTop true (matchAtoms tailFileOrDir (p.data.map GAtom.lit)) q.data) := by
    simp only [should_ignore, pathsToCheck, if_neg (by simp : ¬ (false = true)), List.map]
    rw [ignoreLoop_single q.data p.data hskip hok, hneg, hm]
    simp
  rw [hsi]
  simp only [Option.some.injEq]
  constructor
  · intro hM
    rcases (matchTop_true_iff _ _).mp hM with hf | ⟨a, t, heq, hne, hna, hft⟩
    · obtain ⟨s1, hq1, ht1⟩ := (matchAtoms_lit_iff _ _ _).mp hf
      have hs1 : '\n' ∉ s1 := fun hx =>
        h8 (by rw [hq1]; exact List.mem_append.mpr (Or.inr hx))
      exact ⟨[], s1, by simpa using hq1, Or.inl rfl,
        (tailFileOrDir_no_newline_iff s1 hs1).mp ht1⟩
    · obtain ⟨s1, ht1, hts⟩ := (matchAtoms_lit_iff _ _ _).mp hft
      have hqd : q.data = (a ++ ['/']) ++ p.data ++ s1 := by
        rw [heq, ht1]; simp
      have hs1 : '\n' ∉ s1 := fun hx =>
        h8 (by rw [hqd]; exact List.mem_append.mpr (Or.inr hx))
      exact ⟨a ++ ['/'], s1, hqd,
        Or.inr (List.getLast?_concat a),
        (tailFileOrDir_no_newline_iff s1 hs1).mp hts⟩
  · rintro ⟨pre, suf, hdecomp, hpre, hsuf⟩
    have hsufn : '\n' ∉ suf := fun hx =>
      h8 (by rw [hdecomp]; exact List.mem_append.mpr (Or.inr hx))
    have htail : tailFileOrDir suf = true := (tailFileOrDir_no_newline_iff suf hsufn).mpr hsuf
    rcases hpre with h0 | h0
    · subst h0
      exact (matchTop_true_iff _ _).mpr (Or.inl
        ((matchAtoms_lit_iff _ _ _).mpr ⟨suf, by simpa using hdecomp, htail⟩))
    · rcases pre.eq_nil_or_concat' with rfl | ⟨a, c, rfl⟩
      · simp at h0
      · have hc : c = '/' := by
          have h01 := List.getLast?_concat (a := c) a
          rw [h01] at h0
          exact (Option.some.injEq _ _).mp h0
        subst hc
        have hane : a ≠ [] := by
          rintro rfl
          exact h9 (by rw [hdecomp]; simp)
        have hna : '\n' ∉ a := fun hx =>
          h8 (by
            rw [hdecomp]
            exact List.mem_append.mpr (Or.inl (List.mem_append.mpr
              (Or.inl (List.mem_append.mpr (Or.inl hx))))))
        have hqd : q.data = a ++ '/' :: (p.data ++ suf) := by
          rw [hdecomp]; simp
        exact (matchTop_true_iff _ _).mpr (Or.inr ⟨a, p.data ++ suf, hqd, hane, hna,
          (matchAtoms_lit_iff _ _ _).mpr ⟨suf, rfl, htail⟩⟩)

/-- Witness for claim C5: the pattern "build" and path "src/build"
satisfy all the hypotheses, and the theorem yields that the path is
ignored. -/
theorem c5_literal_pattern_segment_match_witness :
    should_ignore ["build"] "src/build" false = some true :=
  (c5_literal_pattern_segment_match "build" "src/build" (by decide) (by decide)
    (by decide) (by decide) (by decide) (by decide) (by decide) (by decide)
    (by decide)).mpr
    ⟨['s', 'r', 'c', '/'], [], by decide, Or.inr (by decide), Or.inl rfl⟩

/-- Claim C7: compiling the pattern "weird[abc" raises no error (its
regex compiles), the unterminated `[` is treated as a literal character
(the compiled body is the literal character sequence of the pattern),
the pattern does ignore a path equal to it, and every path it ignores
contains the literal character sequence "weird[abc". -/
theorem c7_unterminated_class_literal :
    patOk "weird[abc".data = true ∧
    patternRegex "weird[abc".data =
      CompiledRegex.pat true ("weird[abc".data.map GAtom.lit) false ∧
    should_ignore ["weird[abc"] "weird[abc" false = some true ∧
    ∀ q : String, should_ignore ["weird[abc"] q false = some true →
      hasSub "weird[abc".data q.data = true := by
  refine ⟨by decide, by decide, by decide, ?_⟩
  intro q hq
  have hskip : patternSkip "weird[abc".data = false := by decide
  have hok : patOk "weird[abc".data = true := by decide
  have hreg : patternRegex "weird[abc".data =
      CompiledRegex.pat true ("weird[abc".data.map GAtom.lit) false := by decide
  have hneg : patternNeg "weird[abc".data = false := by decide
  have hm : patMatches "weird[abc".data [q.data] =
      matchTop true (matchAtoms tailFileOrDir ("weird[abc".data.map GAtom.lit)) q.data := by
    simp [patMatches, hreg, matchCompiled]
  have hsi : should_ignore ["weird[abc"] q false =
      some (matchTop true (matchAtoms tailFileOrDir ("weird[abc".data.map GAtom.lit)) q.data) := by
    simp only [should_ignore, pathsToCheck, if_neg (by simp : ¬ (false = true)), List.map]
    rw [ignoreLoop_single q.data "weird[abc".data hskip hok, hneg, hm]
    simp
  rw [hsi] at hq
  have hM : matchTop true (matchAtoms tailFileOrDir ("weird[abc".data.map GAtom.lit)) q.data
      = true := by simpa using hq
  rcases (matchTop_true_iff _ _).mp hM with hf | ⟨a, t, heq, -, -, hft⟩
  · obtain ⟨s1, hq1, -⟩ := (matchAtoms_lit_iff _ _ _).mp hf
    exact hasSub_of_decomp _ [] s1 q.data (by simpa using hq1)
  · obtain ⟨s1, ht1, -⟩ := (matchAtoms_lit_iff _ _ _).mp hft
    refine hasSub_of_decomp _ (a ++ ['/']) s1 q.data ?_
    rw [heq, ht1]; simp

/-- Witness for claim C7: the path "x/weird[abc" is ignored by the
pattern "weird[abc", and the theorem yields that it contains the
pattern literally. -/
theorem c7_unterminated_class_literal_witness :
    should_ignore ["weird[abc"] "x/weird[abc" false = some true ∧
    hasSub "weird[abc".data "x/weird[abc".data = true :=
  ⟨by decide, c7_unterminated_class_literal.2.2.2 "x/weird[abc" (by decide)⟩

/-- Claim C6 (amended): for a pattern whose compiled regex is in the
non-directory form (the pattern is nonempty and its stripped form does
not end in `/`), a matched path stays matched when `'/' ++ r` is
appended, for newline-free paths and suffixes.  (The claim as stated
fails for the empty pattern, whose regex is the special form matching
only the empty string, and for suffixes containing a newline, which
the regex parts `.*` and `$` cannot accommodate.) -/
theorem c6_slash_extension (p q r : String) (lead : Bool) (atoms : List GAtom)
    (hc : convert_pattern_to_regex p.data = CompiledRegex.pat lead atoms false)
    (hq : '\n' ∉ q.data) (hr : '\n' ∉ r.data)
    (hm : re_match (convert_pattern_to_regex p.data) q.data = some true) :
    re_match (convert_pattern_to_regex p.data) (q ++ "/" ++ r).data = some true := by
  have hdata : (q ++ "/" ++ r).data = q.data ++ '/' :: r.data := by
    rw [String.data_append, String.data_append]
    simp
  rw [hc] at hm ⊢
  rw [hdata]
  by_cases hok : regexOk (CompiledRegex.pat lead atoms false) = true
  · have hmc : matchCompiled (CompiledRegex.pat lead atoms false) q.data = true := by
      simpa [re_match, hok] using hm
    have hmc2 : matchTop lead (matchAtoms tailFileOrDir atoms) q.data = true := by
      simpa [matchCompiled] using hmc
    have hext := matchTop_extend lead (matchAtoms tailFileOrDir atoms) ('/' :: r.data)
      (fun t htn hft =>
        matchAtoms_extend tailFileOrDir ('/' :: r.data)
          (tailFileOrDir_extend r.data hr) atoms t htn hft)
      q.data hq hmc2
    simp [re_match, hok, matchCompiled, hext]
  · simp [re_match, hok] at hm

/-- Witness for claim C6: pattern "a", path "a", suffix "b". -/
theorem c6_slash_extension_witness :
    re_match (convert_pattern_to_regex "a".data) ("a" ++ "/" ++ "b").data = some true :=
  c6_slash_extension "a" "a" "b" true [GAtom.lit 'a'] (by decide) (by decide)
    (by decide) (by decide)

/-- Counterexample for claim C6 as stated: the compiled predicate of
the nonempty pattern "a" (which does not end in a slash) matches the
path "a" but not "a" + "/" + "\nb" (the appended suffix contains a
newline), and the compiled predicate of the empty pattern "" (which
does not end in a slash either) matches the path "" but not "" + "/x". -/
theorem c6_counterexample :
    ("a" : String).data.getLast? ≠ some '/' ∧
    re_match (convert_pattern_to_regex "a".data) "a".data = some true ∧
    re_match (convert_pattern_to_regex "a".data) "a/\nb".data = some false ∧
    ("" : String).data.getLast? ≠ some '/' ∧
    re_match (convert_pattern_to_regex "".data) "".data = some true ∧
    re_match (convert_pattern_to_regex "".data) "/x".data = some false := by
  refine ⟨by decide, by decide, by decide, by decide, by decide, by decide⟩

/-- The loop of `_should_ignore` never raises when every pattern's
regex compiles, whatever the state of the `negated` flag. -/
lemma ignoreLoop_ne_none (paths : List (List Char)) :
    ∀ (pats : List (List Char)) (negated : Bool), (∀ p ∈ pats, patOk p = true) →
      ignoreLoop paths pats negated ≠ none := by
  intro pats
  induction pats with
  | nil => intro negated _; simp [ignoreLoop]
  | cons p rest ih =>
    intro negated h
    have hp := h p (by simp)
    have hrest : ∀ q ∈ rest, patOk q = true := fun q hq => h q (by simp [hq])
    by_cases hs : patternSkip p = true
    · simpa [ignoreLoop, hs] using ih negated hrest
    · by_cases hm : patMatches p paths = true
      · by_cases hn : patternNeg p = true
        · simpa [ignoreLoop, hs, hp, hm, hn] using ih true hrest
        · by_cases hflag : negated = true
          · simpa [ignoreLoop, hs, hp, hm, hn, hflag] using ih negated hrest
          · simp [ignoreLoop, hs, hp, hm, hn, hflag]
      · simpa [ignoreLoop, hs, hp, hm] using ih negated hrest

/-- The glob loop never emits a character class from an input without
`[`, so the produced atoms always compile. -/
lemma convertAtomsF_no_cls :
    ∀ (fuel : Nat) (l : List Char), '[' ∉ l →
      regexOkAtoms (convertAtomsF fuel l) = true := by
  intro fuel
  induction fuel with
  | zero => intro l _; rfl
  | succ n ih =>
    intro l hl
    cases l with
    | nil => rfl
    | cons c rest =>
      have hc : ¬ c = '[' := fun h => hl (by simp [h])
      have hrest : '[' ∉ rest := fun h => hl (by simp [h])
      by_cases h1 : c = '*'
      · cases rest with
        | nil =>
          have h0 : ('[' : Char) ∉ ([] : List Char) := by simp
          simpa [convertAtomsF, h1, regexOkAtoms] using
            (by simpa [regexOkAtoms] using ih [] h0)
        | cons c2 rest2 =>
          have hrest2 : '[' ∉ rest2 := fun h => hrest (by simp [h])
          by_cases h2 : c2 = '*'
          · simpa [convertAtomsF, h1, h2, regexOkAtoms] using
              (by simpa [regexOkAtoms] using ih rest2 hrest2)
          · simpa [convertAtomsF, h1, h2, regexOkAtoms] using
              (by simpa [regexOkAtoms] using ih (c2 :: rest2) hrest)
      · by_cases h2 : c = '?'
        · simpa [convertAtomsF, h1, h2, regexOkAtoms] using
            (by simpa [regexOkAtoms] using ih rest hrest)
        · simpa [convertAtomsF, h1, h2, hc, regexOkAtoms] using
            (by simpa [regexOkAtoms] using ih rest hrest)

/-- Stripping only removes characters. -/
lemma mem_of_mem_stripChars (l : List Char) (x : Char) (hx : x ∈ stripChars l) : x ∈ l := by
  unfold stripChars at hx
  rw [List.mem_reverse] at hx
  have h2 : x ∈ (l.dropWhile pyWhitespace).reverse := (List.dropWhile_sublist _).subset hx
  rw [List.mem_reverse] at h2
  exact (List.dropWhile_sublist _).subset h2

/-- A stored pattern containing no `[` always compiles. -/
lemma patOk_of_no_bracket (pl : List Char) (h : '[' ∉ pl) : patOk pl = true := by
  have hbody : '[' ∉ patternBody pl := by
    unfold patternBody
    split
    · exact fun hx => h (List.tail_subset pl hx)
    · exact h
  unfold patOk patternRegex
  generalize patternBody pl = b at hbody
  unfold convert_pattern_to_regex
  by_cases h0 : b = []
  · simp [h0, regexOk]
  · rw [if_neg h0]
    have h1 : '[' ∉ stripChars b := fun hx => hbody (mem_of_mem_stripChars b '[' hx)
    simp only [regexOk, convertAtoms]
    split_ifs with hdir hhead hhead
    · exact convertAtomsF_no_cls _ _
        (fun hx => h1 (List.dropLast_subset _ (List.tail_subset _ hx)))
    · exact convertAtomsF_no_cls _ _ (fun hx => h1 (List.dropLast_subset _ hx))
    · exact convertAtomsF_no_cls _ _ (fun hx => h1 (List.tail_subset _ hx))
    · exact convertAtomsF_no_cls _ _ h1

/-- The default-appending loop appends exactly the defaults not
already present, in order, when the default list has no duplicates. -/
lemma addDefaults_eq :
    ∀ ds : List String, ds.Nodup → ∀ acc : List String,
      addDefaults acc ds = acc ++ ds.filter (fun d => decide (d ∉ acc)) := by
  intro ds
  induction ds with
  | nil => intro _ acc; simp [addDefaults]
  | cons d ds1 ih =>
    intro hnd acc
    obtain ⟨hdns, hnd1⟩ := List.nodup_cons.mp hnd
    by_cases hd : d ∈ acc
    · rw [addDefaults, if_pos hd, ih hnd1 acc, List.filter_cons]
      simp [hd]
    · rw [addDefaults, if_neg hd, ih hnd1 (acc ++ [d]), List.filter_cons]
      have hcongr : ds1.filter (fun x => decide (x ∉ acc ++ [d])) =
          ds1.filter (fun x => decide (x ∉ acc)) := by
        apply List.filter_congr
        intro x hx
        have hxd : ¬ x = d := fun hxe => hdns (hxe ▸ hx)
        simp [List.mem_append, hxd]
      rw [hcongr]
      simp [hd]

/-- Claim C1 (amended): `_should_ignore` implements first-match-wins,
not last-match-wins: the outcome is `some` of the first-match
evaluation, so for the ordered patterns "*.log", "!important.log" the
path "debug.log" is ignored and "important.log" is ignored as well
(the earlier non-negated match decides before the negation is seen),
and with "important.log" re-added the path stays ignored. -/
theorem c1_first_match_wins (patterns : List String) (path : String) (isDir : Bool)
    (h : ∀ p ∈ patterns, patOk p.data = true) :
    should_ignore patterns path isDir =
      some (specFirstMatch (pathsToCheck path.data isDir)
        (patterns.map (fun s => s.data))) ∧
    should_ignore ["*.log", "!important.log"] "debug.log" false = some true ∧
    should_ignore ["*.log", "!important.log"] "important.log" false = some true ∧
    should_ignore ["*.log", "!important.log", "important.log"] "important.log" false
      = some true := by
  refine ⟨?_, by decide, by decide, by decide⟩
  have h2 : ∀ pl ∈ patterns.map (fun s => s.data), patOk pl = true := by
    intro pl hpl
    obtain ⟨s, hs, rfl⟩ := List.mem_map.mp hpl
    exact h s hs
  simpa [should_ignore] using
    ignoreLoop_eq_specFirstMatch (pathsToCheck path.data isDir)
      (patterns.map (fun s => s.data)) h2

/-- Witness for claim C1: the first-match evaluation agrees with
`_should_ignore` on the negation example. -/
theorem c1_first_match_wins_witness :
    should_ignore ["*.log", "!important.log"] "important.log" false =
      some (specFirstMatch (pathsToCheck "important.log".data false)
        (["*.log", "!important.log"].map (fun s => s.data))) :=
  (c1_first_match_wins ["*.log", "!important.log"] "important.log" false (by decide)).1

/-- Counterexample for claim C1 as stated: for the ordered patterns
"*.log", "!important.log" and the path "important.log", the last
matching pattern is the negated one, so last-match-wins evaluation
keeps the path, yet `_should_ignore` returns True. -/
theorem c1_counterexample :
    specLastMatchWins (pathsToCheck "important.log".data false)
      (["*.log", "!important.log"].map (fun s => s.data)) = false ∧
    should_ignore ["*.log", "!important.log"] "important.log" false = some true :=
  ⟨by decide, by decide⟩

/-- Claim C2 (code bug): a freshly constructed ignore set with zero
user patterns does NOT ignore ".git/config" nor
"node_modules/pkg/index.js": the default patterns have the shape
`**/name/**`, and the `/` after `**` is compiled as a mandatory
literal slash, which root-level paths lack. -/
theorem c2_default_root_paths_not_ignored :
    should_ignore (get_ignore_list []) ".git/config" false = some false ∧
    should_ignore (get_ignore_list []) "node_modules/pkg/index.js" false = some false :=
  ⟨by decide, by decide⟩

/-- Claim C3 (code bug): the pattern "**/test/**" ignores
"a/test/b.py" and "a/b/test/c/d.py" but NOT the zero-leading-segment
path "test/b.py", although the source comments that `**` matches zero
or more directories: `**/` compiles to `.*/` whose slash is
mandatory. -/
theorem c3_doublestar_zero_segments :
    should_ignore ["**/test/**"] "a/test/b.py" false = some true ∧
    should_ignore ["**/test/**"] "a/b/test/c/d.py" false = some true ∧
    should_ignore ["**/test/**"] "test/b.py" false = some false :=
  ⟨by decide, by decide, by decide⟩

/-- Claim C4 (amended): the directory-only pattern "dist/" ignores
"dist" when flagged as a directory and everything under "dist/", and
it ALSO ignores a non-directory candidate literally named "dist": the
compiled regex ends in `(?:/|$)` and its `$` branch accepts the plain
path, so the trailing-slash variant is not needed.  A different name
such as "distx" is not ignored. -/
theorem c4_dir_pattern :
    should_ignore ["dist/"] "dist" true = some true ∧
    should_ignore ["dist/"] "dist/sub/file.txt" false = some true ∧
    should_ignore ["dist/"] "dist" false = some true ∧
    should_ignore ["dist/"] "distx" false = some false :=
  ⟨by decide, by decide, by decide, by decide⟩

/-- Counterexample for claim C4 as stated: a candidate literally named
"dist" that is NOT a directory is nevertheless ignored by the pattern
"dist/". -/
theorem c4_counterexample :
    should_ignore ["dist/"] "dist" false = some true := by decide

/-- Claim C8 (amended): `_convert_pattern_to_regex` is total, and
`_should_ignore` never raises provided every pattern's compiled regex
itself compiles; in particular every pattern list free of `[` is safe.
(The claim as stated fails: a malformed character class such as
"[z-a]" makes `re.match` raise `re.error`.) -/
theorem c8_no_error :
    (∀ (patterns : List String) (path : String) (isDir : Bool),
      (∀ p ∈ patterns, patOk p.data = true) →
      should_ignore patterns path isDir ≠ none) ∧
    (∀ pl : List Char, '[' ∉ pl → patOk pl = true) := by
  constructor
  · intro patterns path isDir h
    have h2 : ∀ pl ∈ patterns.map (fun s => s.data), patOk pl = true := by
      intro pl hpl
      obtain ⟨s, hs, rfl⟩ := List.mem_map.mp hpl
      exact h s hs
    exact ignoreLoop_ne_none (pathsToCheck path.data isDir)
      (patterns.map (fun s => s.data)) false h2
  · exact patOk_of_no_bracket

/-- Witness for claim C8: a bracket-free pattern compiles, and
evaluation on it returns a value. -/
theorem c8_no_error_witness :
    patOk "w".data = true ∧ should_ignore ["w"] "x/w" false ≠ none :=
  ⟨c8_no_error.2 "w".data (by decide),
   c8_no_error.1 ["w"] "x/w" false (by decide)⟩

/-- Counterexample for claim C8 as stated: the pattern "[z-a]"
compiles to a regex with a reversed character range, and evaluating
`_should_ignore` on it raises `re.error` (modelled as `none`) instead
of returning a Boolean. -/
theorem c8_counterexample :
    should_ignore ["[z-a]"] "a" false = none := by decide

/-- Claim C9 (amended): `_get_ignore_list` puts the user-supplied
patterns FIRST, in their original order, and appends the defaults not
already present after them (the spec's claim that defaults precede
user patterns is reversed). -/
theorem c9_user_then_defaults (lines : List String) :
    get_ignore_list lines =
      userPats lines ++ default_ignores.filter (fun d => decide (d ∉ userPats lines)) :=
  addDefaults_eq default_ignores (by decide) (userPats lines)

/-- Counterexample for claim C9 as stated: with the single user
pattern "*.log", the produced list starts with the user pattern and
the defaults follow it, so no default precedes the user pattern. -/
theorem c9_counterexample :
    get_ignore_list ["*.log"] = "*.log" :: default_ignores ∧
    ("*.log" : String) ∉ default_ignores :=
  ⟨by decide, by decide⟩

/-- Claim C10: the `negated` flag is never cleared once set, so
`_should_ignore` returns True iff some non-negated pattern matches
strictly before (in load order) every matching negated pattern: the
pattern list splits as `pre ++ p :: suf` with `p` a non-skipped,
non-negated, matching pattern and no matching negated pattern in
`pre` (stated under the hypothesis that every pattern's regex
compiles, without which the function raises instead of returning). -/
theorem c10_nonnegated_before_negated (patterns : List String) (path : String)
    (isDir : Bool) (h : ∀ p ∈ patterns, patOk p.data = true) :
    (should_ignore patterns path isDir = some true ↔
      ∃ pre pl suf, patterns.map (fun s => s.data) = pre ++ pl :: suf ∧
        patternSkip pl = false ∧ patternNeg pl = false ∧
        patMatches pl (pathsToCheck path.data isDir) = true ∧
        ∀ q ∈ pre, ¬(patternSkip q = false ∧ patternNeg q = true ∧
          patMatches q (pathsToCheck path.data isDir) = true)) := by
  have h2 : ∀ pl ∈ patterns.map (fun s => s.data), patOk pl = true := by
    intro pl hpl
    obtain ⟨s, hs, rfl⟩ := List.mem_map.mp hpl
    exact h s hs
  have heq : should_ignore patterns path isDir =
      some (specFirstMatch (pathsToCheck path.data isDir)
        (patterns.map (fun s => s.data))) := by
    simpa [should_ignore] using
      ignoreLoop_eq_specFirstMatch (pathsToCheck path.data isDir)
        (patterns.map (fun s => s.data)) h2
  rw [heq]
  simp only [Option.some.injEq]
  exact specFirstMatch_iff_decomp (pathsToCheck path.data isDir)
    (patterns.map (fun s => s.data))

/-- Witness for claim C10: a matching non-negated pattern with no
negated pattern before it makes the path ignored. -/
theorem c10_nonnegated_before_negated_witness :
    should_ignore ["x"] "x" false = some true :=
  (c10_nonnegated_before_negated ["x"] "x" false (by decide)).mpr
    ⟨[], "x".data, [], by decide, by decide, by decide, by decide, by simp⟩

end RepoToText
